import Mathlib

/-!
Shallow embedding of the K-map visualizer backend (src/app.py).

The program takes variable names, an on-set (minterms), a dont-care set and a
form type (SOP or POS), asks an external minimizer (sympy SOPform/POSform) for
a minimized expression, expands each term of the expression into the list of
covered truth-table indices, formats each group back into an algebraic term
string, renders the Karnaugh-map grid with Gray-coded axes, and assembles the
response.

Conventions of the embedding:
* Python integers are Nat; binary strings format(m, "0nb") are replaced by the
  bit extractor bitAt m n j, which agrees with string indexing for m < 2^n
  (the Index domain of the data model).
* A sympy literal (Symbol or Not(Symbol)) is a Literal; a product term is a
  List Literal (term.args of an And, or the single literal itself).
* The sympy dict fixed_vars is the function fixedOf : List Literal -> String ->
  Option Nat, with the last assignment winning as in a Python dict.
* The external minimizer (sympy boolalg) is a parameter of the orchestrator,
  per the spec it is an out-of-scope collaborator.
-/

namespace KMap

/-- The prime marker appended to a complemented variable name (ASCII 39). -/
def primeMark : String := String.singleton (Char.ofNat 39)

/-- A literal: a variable name with a polarity (true = plain symbol,
false = negated symbol, i.e. sympy Not). -/
structure Literal where
  var : String
  polarity : Bool
deriving DecidableEq

/-- The bit required by a literal, as recorded in fixed_vars (app.py lines
58-61): Not(arg) records 0, a plain symbol records 1. -/
def polBit (l : Literal) : Nat := if l.polarity then 1 else 0

/-- Bit of m at string position j of format(m, "0nb") (most significant
first), valid for m < 2^n. -/
def bitAt (m n j : Nat) : Nat := m / 2 ^ (n - 1 - j) % 2

/-- The fixed_vars dict of get_minterms_for_term (app.py lines 55-61): maps a
variable name to the bit its literal requires; a later entry for the same name
overwrites an earlier one, as in a Python dict. -/
def fixedOf : List Literal → String → Option Nat
  | [], _ => none
  | l :: rest, name =>
    match fixedOf rest name with
    | some v => some v
    | none => if l.var = name then some (polBit l) else none

/-- The inner loop of get_minterms_for_term (app.py lines 64-67): walks
enumerate(vars) carrying the position j, and rejects i as soon as a
bit of a constrained variable disagrees. -/
def coveredAux (fixed : String → Option Nat) (n i : Nat) : List String → Nat → Bool
  | [], _ => true
  | v :: vs, j =>
    (match fixed v with
     | some b => bitAt i n j == b
     | none => true) && coveredAux fixed n i vs (j + 1)

/-- is_covered for index i (app.py lines 63-67). -/
def isCovered (fixed : String → Option Nat) (vars : List String) (i : Nat) : Bool :=
  coveredAux fixed vars.length i vars 0

/-- get_minterms_for_term (app.py lines 50-69): expands a single term into the
ordered list of indices it covers. -/
def get_minterms_for_term (term : List Literal) (vars : List String) : List Nat :=
  (List.range (2 ^ vars.length)).filter (fun i => isCovered (fixedOf term) vars i)

/-- Position of the first occurrence of a variable name in the variable list. -/
def posOf (v : String) : List String → Option Nat
  | [] => none
  | w :: ws => if w = v then some 0 else (posOf v ws).map Nat.succ

/-- Modelled from the spec (section 4.2 TermExpander): an index is consistent
with a term iff, for every literal, the bit at the position of the constrained variable
matches the polarity of that literal; unconstrained vars range
freely. -/
def specMatches (term : List Literal) (vars : List String) (i : Nat) : Bool :=
  term.all fun l =>
    match posOf l.var vars with
    | some j => bitAt i vars.length j == polBit l
    | none => true

/-- A minimized expression as consumed by the pipeline. sympy SOPform and
POSform return the sympy singletons S.true and S.false (BooleanTrue,
BooleanFalse) for a constant function, never the Python builtins True and
False. The two kinds compare equal under the Python equality test but differ
under the identity test (is), so the embedding keeps them apart: pyBool is a
Python builtin bool, const is a sympy Boolean constant. -/
inductive BExpr where
  | pyBool : Bool → BExpr
  | const : Bool → BExpr
  | disj : List (List Literal) → BExpr
deriving DecidableEq

/-- get_implicant_groups (app.py lines 71-78): the test
minimized_expr in [True, False] uses equality, which the sympy constants do
satisfy against the Python builtins, so every constant gives no groups;
otherwise each top-level term expands to one group, in order. -/
def get_implicant_groups (minimized_expr : BExpr) (vars : List String) :
    List (List Nat) :=
  match minimized_expr with
  | .pyBool _ => []
  | .const _ => []
  | .disj terms => terms.map (fun t => get_minterms_for_term t vars)

/-- Rendering of one literal after the replace of "~v" by "v + prime"
(app.py lines 84-85). -/
def litStr (l : Literal) : String :=
  if l.polarity then l.var else l.var ++ primeMark

/-- format_sympy_expr (app.py lines 80-89). Lines 81-82 test
expr_obj is True and expr_obj is False: Python identity against the
builtins, which fires only for a Python bool (pyBool) and never for the
sympy constants the minimizer returns. A sympy constant therefore falls
through to str(expr_obj), which prints "True" or "False"; the replacement
passes ("~v" to primed, " & " and " | " rewritten) find nothing in those
strings and leave them unchanged. The non-constant branch models the result
of the same string replacements applied to the printed expression, rendered
structurally over BExpr. -/
def format_sympy_expr (expr_obj : BExpr) (form_type : String) : String :=
  match expr_obj with
  | .pyBool true => "1"
  | .pyBool false => "0"
  | .const true => "True"
  | .const false => "False"
  | .disj terms =>
    if form_type = "SOP" then
      String.intercalate " + " (terms.map (fun t => String.join (t.map litStr)))
    else
      String.join (terms.map (fun t =>
        "(" ++ String.intercalate " + " (t.map litStr) ++ ")"))

/-- First bit of the group at position i: bin_strings[0][i] of app.py line 26
(headD 0 as the group is checked nonempty before use). -/
def firstBit (group_minterms : List Nat) (n i : Nat) : Nat :=
  bitAt (group_minterms.headD 0) n i

/-- Whether bit position i is constant across the group (app.py line 28). -/
def constAt (group_minterms : List Nat) (n i : Nat) : Bool :=
  group_minterms.all (fun m => bitAt m n i == firstBit group_minterms n i)

/-- The literal contributed by constant bit position i in group_to_term
(app.py lines 29-35): the variable at i, plain when (SOP and bit 1) or
(POS and bit 0), primed otherwise. -/
def derivedLit (group_minterms : List Nat) (vars : List String)
    (form_type : String) (i : Nat) : Literal :=
  { var := vars.getD i "",
    polarity := (form_type == "SOP" && firstBit group_minterms vars.length i == 1)
      || (form_type == "POS" && firstBit group_minterms vars.length i == 0) }

/-- The literals contributed by the constant bit positions in group_to_term
(app.py lines 23-37): non-constant positions are dropped. -/
def derivedLiterals (group_minterms : List Nat) (vars : List String)
    (form_type : String) : List Literal :=
  (List.range vars.length).filterMap fun i =>
    if constAt group_minterms vars.length i then
      some (derivedLit group_minterms vars form_type i)
    else none

/-- group_to_term (app.py lines 10-46): empty group gives "", no constant
position gives "1", SOP concatenates the literals, POS joins them with
" + " inside parentheses. -/
def group_to_term (group_minterms : List Nat) (vars : List String)
    (form_type : String) : String :=
  if group_minterms = [] then ""
  else
    let term_parts := (derivedLiterals group_minterms vars form_type).map litStr
    if term_parts = [] then "1"
    else if form_type = "SOP" then String.join term_parts
    else "(" ++ String.intercalate " + " term_parts ++ ")"

/-- Modelled from the spec (section 4.4 TermFormatter): for each position, a
bit value is constant across the group iff every member has that value there;
a constant 0 gives the primed name under SOP and the plain name under POS, a
constant 1 the reverse; non-constant positions are dropped. -/
def specLiteralAt (group_minterms : List Nat) (vars : List String)
    (form_type : String) (i : Nat) : Option String :=
  if group_minterms.all (fun m => bitAt m vars.length i == 0) then
    some (if form_type == "POS" then vars.getD i ""
          else vars.getD i "" ++ primeMark)
  else if group_minterms.all (fun m => bitAt m vars.length i == 1) then
    some (if form_type == "SOP" then vars.getD i ""
          else vars.getD i "" ++ primeMark)
  else none

/-- Modelled from the spec (section 4.4 TermFormatter): the display string
assembled from the per-position literals, "1" when every position is dropped,
concatenation for SOP and a parenthesized " + "-join for POS. -/
def specTermString (group_minterms : List Nat) (vars : List String)
    (form_type : String) : String :=
  let parts := (List.range vars.length).filterMap
    (specLiteralAt group_minterms vars form_type)
  if parts = [] then "1"
  else if form_type = "SOP" then String.join parts
  else "(" ++ String.intercalate " + " parts ++ ")"

/-- gray_map = {0: 0, 1: 1, 2: 3, 3: 2} with .get(x, x) defaulting to x
(app.py lines 98 and 104). -/
def gray_map (x : Nat) : Nat :=
  if x = 0 then 0 else if x = 1 then 1 else if x = 2 then 3 else if x = 3 then 2 else x

/-- rows and cols of the grid (app.py line 94). -/
def kmapDims (num_vars : Nat) : Nat × Nat :=
  if num_vars = 4 then (4, 4) else if num_vars = 3 then (2, 4) else (2, 2)

/-- Grid position of index i (app.py lines 102-104): the top n//2 bits are the
row value and the remaining bits the column value, each sent through gray_map.
For i < 2^n this agrees with int(bin_str[:rb], 2) and int(bin_str[rb:], 2). -/
def kmapPos (num_vars i : Nat) : Nat × Nat :=
  let col_bits := num_vars - num_vars / 2
  (gray_map (i / 2 ^ col_bits), gray_map (i % 2 ^ col_bits))

/-- all_terms.get(i, "0") (app.py lines 100-102): the dont-care update
overwrites an on-set entry for the same key, as dict.update does. -/
def all_terms_get (minterms dontcares : List Nat) (i : Nat) : String :=
  if dontcares.contains i then "X" else if minterms.contains i then "1" else "0"

/-- Write value v into cell (r, c) of the nested-list grid (app.py line 105). -/
def setCell (g : List (List String)) (r c : Nat) (v : String) : List (List String) :=
  g.set r ((g.getD r []).set c v)

/-- Read cell (r, c) of the nested-list grid. -/
def getCell (g : List (List String)) (r c : Nat) : String :=
  (g.getD r []).getD c "0"

/-- The kmap grid of generate_kmap (app.py lines 99-105): start from an
all-"0" grid and write the value of every index at its Gray-coded position. -/
def fillKmap (num_vars : Nat) (minterms dontcares : List Nat) : List (List String) :=
  (List.range (2 ^ num_vars)).foldl
    (fun kmap i =>
      setCell kmap (kmapPos num_vars i).1 (kmapPos num_vars i).2
        (all_terms_get minterms dontcares i))
    (List.replicate (kmapDims num_vars).1 (List.replicate (kmapDims num_vars).2 "0"))

/-- The dict returned by generate_kmap, extended with the keys added by
the update in solve_kmap (groups, explanations, form_type). -/
structure KmapData where
  map : List (List String)
  row_labels : List String
  col_labels : List String
  row_vars : String
  col_vars : String
  output_name : String
  groups : List (List Nat)
  explanations : List String
  form_type : String
deriving DecidableEq

/-- generate_kmap (app.py lines 91-106); returns none for an unsupported
variable count (the Python None). -/
def generate_kmap (vars : List String) (minterms dontcares : List Nat)
    (output_name : String) : Option KmapData :=
  let num_vars := vars.length
  if num_vars = 2 ∨ num_vars = 3 ∨ num_vars = 4 then
    let row_vars := vars.take (num_vars / 2)
    let col_vars := vars.drop (num_vars / 2)
    some { map := fillKmap num_vars minterms dontcares,
           row_labels := if row_vars.length = 1 then ["0", "1"] else ["00", "01", "11", "10"],
           col_labels := if col_vars.length = 1 then ["0", "1"] else ["00", "01", "11", "10"],
           row_vars := String.intercalate "," row_vars,
           col_vars := String.intercalate "," col_vars,
           output_name := output_name,
           groups := [], explanations := [], form_type := "" }
  else none

/-- Python sorted on a list of integers: ascending order. -/
def pySorted (l : List Nat) : List Nat := List.insertionSort (fun a b => a ≤ b) l

/-- Python str of a list of integers: "[1, 2, 3]". -/
def pyListStr (l : List Nat) : String :=
  "[" ++ String.intercalate ", " (l.map toString) ++ "]"

/-- The explanation sentence (app.py lines 156-158). -/
def explSentence (term_name : String) (relevant_terms : List Nat)
    (algebraic_term : String) : String :=
  "A group is formed around the " ++ term_name ++ " at positions <strong>"
    ++ pyListStr relevant_terms ++ "</strong>. This simplifies to the term <code>"
    ++ algebraic_term ++ "</code>."

/-- The explanation loop of solve_kmap (app.py lines 150-159): a group whose
relevant terms are empty is skipped, otherwise it contributes one sentence. -/
def mkExplanations (groups : List (List Nat)) (terms_to_group : List Nat)
    (vars : List String) (form_type term_name : String) : List String :=
  groups.filterMap fun group =>
    let relevant_terms := pySorted (group.filter (fun m => terms_to_group.contains m))
    if relevant_terms = [] then none
    else some (explSentence term_name relevant_terms
      (group_to_term group vars form_type))

/-- maxterms = list(set(range(2^n)) - set(minterms) - set(dontcares))
(app.py line 143), in ascending order. -/
def maxtermsOf (n : Nat) (minterms dontcares : List Nat) : List Nat :=
  (List.range (2 ^ n)).filter (fun i => !minterms.contains i && !dontcares.contains i)

/-- The external minimizer (sympy boolalg), an out-of-scope collaborator per
the spec: SOPform and POSform as black-box functions. -/
structure Minimizer where
  SOPform : List String → List Nat → List Nat → BExpr
  POSform : List String → List Nat → List Nat → BExpr

/-- The HTTP response of the /solve route: 200 with a solution and kmap dict,
a 400 client error with a message, or the 500 catch-all (whose message wraps
the raised exception and is not modelled further). -/
inductive SolveResponse where
  | ok : String → KmapData → SolveResponse
  | clientError : String → SolveResponse
  | serverError : SolveResponse
deriving DecidableEq

/-- solve_kmap (app.py lines 113-171) after request parsing, with the
minimizer as a parameter. The empty-input short-circuit (lines 123-126) runs
first; when generate_kmap returns None there, kmap_data.update raises and the
boundary except turns it into the 500 response. The variable-count check
(lines 127-128) runs second. -/
def solve_kmap (M : Minimizer) (var_names : List String) (output_name : String)
    (minterms dontcares : List Nat) (form_type : String) : SolveResponse :=
  if var_names = [] ∨ (minterms = [] ∧ dontcares = []) then
    match generate_kmap (if var_names = [] then ["a", "b", "c", "d"] else var_names)
        [] [] output_name with
    | some kd => SolveResponse.ok "0"
        { kd with groups := [], explanations := [], form_type := form_type }
    | none => SolveResponse.serverError
  else if ¬(var_names.length = 2 ∨ var_names.length = 3 ∨ var_names.length = 4) then
    SolveResponse.clientError
      (toString var_names.length ++ " variables not supported (2-4 only).")
  else
    let minimized_expr := if form_type = "SOP"
      then M.SOPform var_names minterms dontcares
      else M.POSform var_names minterms dontcares
    let terms_to_group := if form_type = "SOP" then minterms
      else maxtermsOf var_names.length minterms dontcares
    let group_expr := if form_type = "SOP" then minimized_expr
      else M.SOPform var_names terms_to_group dontcares
    let groups := get_implicant_groups group_expr var_names
    let term_name := if form_type = "SOP" then "1s" else "0s"
    let explanations := mkExplanations groups terms_to_group var_names form_type term_name
    let solution_str := format_sympy_expr minimized_expr form_type
    match generate_kmap var_names minterms dontcares output_name with
    | some kd => SolveResponse.ok solution_str
        { kd with groups := groups, explanations := explanations, form_type := form_type }
    | none => SolveResponse.serverError

/-- The solution string of a 200 response. -/
def respSolution : SolveResponse → Option String
  | .ok s _ => some s
  | _ => none

/-- The groups list of a 200 response. -/
def respGroups : SolveResponse → Option (List (List Nat))
  | .ok _ kd => some kd.groups
  | _ => none

/-- The explanations list of a 200 response. -/
def respExplanations : SolveResponse → Option (List String)
  | .ok _ kd => some kd.explanations
  | _ => none

/-- Whether every cell of the grid of a 200 response equals v. -/
def respGridAll (v : String) : SolveResponse → Bool
  | .ok _ kd => kd.map.all (fun row => row.all (fun cell => cell == v))
  | _ => false

/-- Whether the response is a 400 client error. -/
def isClientError : SolveResponse → Bool
  | .clientError _ => true
  | _ => false

/-- Cell (r, c) of the grid of the generate_kmap result ("" when none). -/
def kmapCellOf (o : Option KmapData) (r c : Nat) : String :=
  match o with
  | some kd => getCell kd.map r c
  | none => ""

/-- A trivial concrete minimizer used to instantiate witnesses on code paths
that never consult the minimizer. -/
def trivialMin : Minimizer :=
  { SOPform := fun _ _ _ => BExpr.const false,
    POSform := fun _ _ _ => BExpr.const false }

/-- A concrete minimizer returning the sympy Boolean-true constant S.true,
as sympy SOPform does when the on-set plus dont-cares cover the whole
table. -/
def constTrueMin : Minimizer :=
  { SOPform := fun _ _ _ => BExpr.const true,
    POSform := fun _ _ _ => BExpr.const true }

/-- The number whose bits (most significant first) are the given list. -/
def ofBits : List Nat → Nat
  | [] => 0
  | b :: bs => b * 2 ^ bs.length + ofBits bs

/-- The bit list of the canonical index of a partial assignment: a constrained
variable contributes its required bit, an unconstrained position contributes
0. -/
def baseBits (fixed : String → Option Nat) (vars : List String) : List Nat :=
  vars.map (fun v => (fixed v).getD 0)

/-- Distance between two coordinates on an axis of the given size, counting
wraparound across the edge as distance 1. -/
def wrapDist (size a b : Nat) : Nat :=
  min ((a - b) + (b - a)) (size - ((a - b) + (b - a)))

/-- Whether two indices occupy adjacent grid cells (Manhattan distance 1 with
wraparound) in the n-variable map. -/
def kmapAdjacent (num_vars x y : Nat) : Bool :=
  wrapDist (kmapDims num_vars).1 (kmapPos num_vars x).1 (kmapPos num_vars y).1
      + wrapDist (kmapDims num_vars).2 (kmapPos num_vars x).2 (kmapPos num_vars y).2
    == 1

/-- Whether two indices differ in exactly one bit (n at most 4 bits here). -/
def oneBitDiff (x y : Nat) : Bool := [1, 2, 4, 8].contains (Nat.xor x y)

/-- A grid has the given shape: rows rows, each of cols cells. -/
def shapeOk (rows cols : Nat) (g : List (List String)) : Prop :=
  g.length = rows ∧ ∀ r, r < rows → (g.getD r []).length = cols

lemma bitAt_lt_two (m n j : Nat) : bitAt m n j < 2 := Nat.mod_lt _ (by decide)

lemma polBit_le_one (l : Literal) : polBit l ≤ 1 := by
  unfold polBit; split <;> simp

lemma fixedOf_eq_none (t : List Literal) (v : String) (h : v ∉ t.map Literal.var) :
    fixedOf t v = none := by
  induction t with
  | nil => rfl
  | cons l rest ih =>
    simp only [List.map_cons, List.mem_cons, not_or] at h
    simp only [fixedOf, ih h.2]
    rw [if_neg]
    exact fun hv => h.1 hv.symm

lemma fixedOf_mem (t : List Literal) (l : Literal) (ht : (t.map Literal.var).Nodup)
    (hl : l ∈ t) : fixedOf t l.var = some (polBit l) := by
  induction t with
  | nil => cases hl
  | cons l0 rest ih =>
    rw [List.map_cons, List.nodup_cons] at ht
    rcases List.mem_cons.mp hl with h | h
    · subst h
      have hn : fixedOf rest l.var = none := fixedOf_eq_none rest l.var ht.1
      simp [fixedOf, hn]
    · have hs := ih ht.2 h
      simp [fixedOf, hs]

lemma fixedOf_some (t : List Literal) (v : String) (b : Nat)
    (h : fixedOf t v = some b) : ∃ l ∈ t, l.var = v ∧ polBit l = b := by
  induction t with
  | nil => simp [fixedOf] at h
  | cons l0 rest ih =>
    rw [fixedOf] at h
    cases hr : fixedOf rest v with
    | some c =>
      rw [hr] at h
      have h' : some c = some b := h
      obtain ⟨l, hl, hv, hb⟩ := ih (hr.trans h')
      exact ⟨l, List.mem_cons_of_mem _ hl, hv, hb⟩
    | none =>
      rw [hr] at h
      have h' : (if l0.var = v then some (polBit l0) else none) = some b := h
      by_cases hc : l0.var = v
      · rw [if_pos hc] at h'
        exact ⟨l0, List.mem_cons_self _ _, hc, Option.some_injective _ h'⟩
      · rw [if_neg hc] at h'
        cases h'

lemma fixedOf_le_one (t : List Literal) (v : String) (b : Nat)
    (h : fixedOf t v = some b) : b ≤ 1 := by
  obtain ⟨l, _, _, hb⟩ := fixedOf_some t v b h
  rw [← hb]
  exact polBit_le_one l

lemma posOf_get (v : String) (vars : List String) (j : Nat)
    (h : posOf v vars = some j) : vars[j]? = some v := by
  induction vars generalizing j with
  | nil => simp [posOf] at h
  | cons w ws ih =>
    rw [posOf] at h
    by_cases hw : w = v
    · rw [if_pos hw] at h
      injection h with h
      subst h
      simp [hw]
    · rw [if_neg hw] at h
      cases hp : posOf v ws with
      | none => rw [hp] at h; cases h
      | some k =>
        rw [hp] at h
        injection h with h
        subst h
        simpa using ih k hp

lemma get_posOf (vars : List String) (hv : vars.Nodup) (j : Nat) (v : String)
    (h : vars[j]? = some v) : posOf v vars = some j := by
  induction vars generalizing j with
  | nil => simp at h
  | cons w ws ih =>
    rcases List.nodup_cons.mp hv with ⟨hw, hws⟩
    cases j with
    | zero =>
      simp only [List.getElem?_cons_zero, Option.some_inj] at h
      rw [posOf, if_pos h]
    | succ k =>
      rw [List.getElem?_cons_succ] at h
      have hmem : v ∈ ws := List.getElem?_mem h
      have hwv : ¬ w = v := fun e => hw (e ▸ hmem)
      rw [posOf, if_neg hwv, ih hws k h]
      rfl

lemma coveredAux_iff (fixed : String → Option Nat) (n i : Nat) (vs : List String)
    (j0 : Nat) :
    coveredAux fixed n i vs j0 = true ↔
      ∀ k v, vs[k]? = some v → ∀ b, fixed v = some b → bitAt i n (j0 + k) = b := by
  induction vs generalizing j0 with
  | nil => simp [coveredAux]
  | cons w ws ih =>
    rw [coveredAux, Bool.and_eq_true]
    constructor
    · rintro ⟨h1, h2⟩ k v hk b hb
      cases k with
      | zero =>
        simp only [List.getElem?_cons_zero, Option.some_inj] at hk
        subst hk
        rw [hb] at h1
        simpa using beq_iff_eq.mp h1
      | succ m =>
        rw [List.getElem?_cons_succ] at hk
        have := (ih (j0 + 1)).mp h2 m v hk b hb
        rw [show j0 + (m + 1) = (j0 + 1) + m by omega]
        exact this
    · intro h
      refine ⟨?_, (ih (j0 + 1)).mpr ?_⟩
      · cases hf : fixed w with
        | none => simp
        | some b =>
          have := h 0 w (by simp) b hf
          simpa using this
      · intro k v hk b hb
        have := h (k + 1) v (by rw [List.getElem?_cons_succ]; exact hk) b hb
        rw [show (j0 + 1) + k = j0 + (k + 1) by omega]
        exact this

lemma isCovered_iff (fixed : String → Option Nat) (vars : List String) (i : Nat) :
    isCovered fixed vars i = true ↔
      ∀ k v, vars[k]? = some v → ∀ b, fixed v = some b → bitAt i vars.length k = b := by
  have := coveredAux_iff fixed vars.length i vars 0
  simpa using this

lemma specMatches_iff (t : List Literal) (vars : List String) (i : Nat) :
    specMatches t vars i = true ↔
      ∀ l ∈ t, ∀ j, posOf l.var vars = some j → bitAt i vars.length j = polBit l := by
  rw [specMatches, List.all_eq_true]
  constructor
  · intro h l hl j hj
    have := h l hl
    rw [hj] at this
    exact beq_iff_eq.mp this
  · intro h l hl
    cases hp : posOf l.var vars with
    | none => simp
    | some j => simpa [beq_iff_eq] using h l hl j hp

lemma isCovered_eq_specMatches (t : List Literal) (vars : List String) (i : Nat)
    (hv : vars.Nodup) (ht : (t.map Literal.var).Nodup) :
    isCovered (fixedOf t) vars i = specMatches t vars i := by
  rw [Bool.eq_iff_iff, isCovered_iff, specMatches_iff]
  constructor
  · intro h l hl j hj
    exact h j l.var (posOf_get l.var vars j hj) (polBit l) (fixedOf_mem t l ht hl)
  · intro h k v hk b hb
    obtain ⟨l, hl, hveq, hbeq⟩ := fixedOf_some t v b hb
    have hpos : posOf l.var vars = some k := by
      rw [hveq]
      exact get_posOf vars hv k v hk
    rw [← hbeq]
    exact h l hl k hpos

/-- Claim C1: get_minterms_for_term returns exactly the ordered list of every
index in [0, 2^n) whose bit at the position of each constrained variable
matches the polarity of that literal, with unconstrained variables ranging freely; a term
with no literals yields all 2^n indices. -/
theorem get_minterms_for_term_spec (t : List Literal) (vars : List String)
    (hv : vars.Nodup) (ht : (t.map Literal.var).Nodup) :
    get_minterms_for_term t vars
        = (List.range (2 ^ vars.length)).filter (specMatches t vars)
      ∧ (t = [] → get_minterms_for_term t vars = List.range (2 ^ vars.length)) := by
  have hmain : get_minterms_for_term t vars
      = (List.range (2 ^ vars.length)).filter (specMatches t vars) := by
    unfold get_minterms_for_term
    exact List.filter_congr (fun i _ => isCovered_eq_specMatches t vars i hv ht)
  refine ⟨hmain, ?_⟩
  intro he
  subst he
  rw [hmain]
  apply List.filter_eq_self.mpr
  intro a _
  rw [specMatches]
  rfl

/-- Witness for get_minterms_for_term_spec at the term a over variables
[a, b]. -/
theorem get_minterms_for_term_spec_witness :
    (["a", "b"] : List String).Nodup
      ∧ (([⟨"a", true⟩] : List Literal).map Literal.var).Nodup
      ∧ (get_minterms_for_term [⟨"a", true⟩] ["a", "b"]
            = (List.range (2 ^ (["a", "b"] : List String).length)).filter
                (specMatches [⟨"a", true⟩] ["a", "b"])
          ∧ (([⟨"a", true⟩] : List Literal) = []
              → get_minterms_for_term [⟨"a", true⟩] ["a", "b"]
                  = List.range (2 ^ (["a", "b"] : List String).length))) :=
  ⟨by decide, by decide,
    get_minterms_for_term_spec [⟨"a", true⟩] ["a", "b"] (by decide) (by decide)⟩

lemma ofBits_lt (bs : List Nat) (h : ∀ b ∈ bs, b ≤ 1) :
    ofBits bs < 2 ^ bs.length := by
  induction bs with
  | nil => simp [ofBits]
  | cons b rest ih =>
    have hb : b ≤ 1 := h b (List.mem_cons_self _ _)
    have hr := ih (fun x hx => h x (List.mem_cons_of_mem _ hx))
    rw [ofBits, List.length_cons, pow_succ]
    have h1 : b * 2 ^ rest.length ≤ 2 ^ rest.length := by
      calc b * 2 ^ rest.length ≤ 1 * 2 ^ rest.length := Nat.mul_le_mul_right _ hb
        _ = 2 ^ rest.length := Nat.one_mul _
    omega

lemma bitAt_ofBits (bs : List Nat) (j : Nat) (h : ∀ b ∈ bs, b ≤ 1)
    (hj : j < bs.length) : bitAt (ofBits bs) bs.length j = bs.getD j 0 := by
  induction bs generalizing j with
  | nil => simp at hj
  | cons b rest ih =>
    have hb : b ≤ 1 := h b (List.mem_cons_self _ _)
    have hrest : ∀ x ∈ rest, x ≤ 1 := fun x hx => h x (List.mem_cons_of_mem _ hx)
    have hlt := ofBits_lt rest hrest
    cases j with
    | zero =>
      rw [ofBits, bitAt, List.length_cons, List.getD_cons_zero]
      rw [show rest.length + 1 - 1 - 0 = rest.length from by omega]
      rw [Nat.add_comm, Nat.add_mul_div_right _ _ (Nat.two_pow_pos _)]
      rw [Nat.div_eq_of_lt hlt]
      rw [Nat.zero_add, Nat.mod_eq_of_lt (by omega)]
    | succ k =>
      have hk : k < rest.length := by
        rw [List.length_cons] at hj
        omega
      rw [ofBits, bitAt, List.length_cons, List.getD_cons_succ]
      rw [show rest.length + 1 - 1 - (k + 1) = rest.length - 1 - k from by omega]
      have hsplit : 2 ^ rest.length = 2 ^ (k + 1) * 2 ^ (rest.length - 1 - k) := by
        rw [← pow_add]
        congr 1
        omega
      rw [hsplit]
      rw [show b * (2 ^ (k + 1) * 2 ^ (rest.length - 1 - k))
          = b * 2 ^ (k + 1) * 2 ^ (rest.length - 1 - k) from by ring]
      rw [Nat.add_comm, Nat.add_mul_div_right _ _ (Nat.two_pow_pos _)]
      rw [show b * 2 ^ (k + 1) = b * 2 ^ k * 2 from by ring]
      rw [Nat.add_mul_mod_self_right]
      have := ih k hrest hk
      rw [bitAt] at this
      exact this

lemma baseBits_le_one (t : List Literal) (vars : List String) :
    ∀ b ∈ baseBits (fixedOf t) vars, b ≤ 1 := by
  intro b hb
  rw [baseBits, List.mem_map] at hb
  obtain ⟨v, _, hv⟩ := hb
  cases hf : fixedOf t v with
  | none =>
    rw [hf] at hv
    simp only [Option.getD_none] at hv
    omega
  | some c =>
    rw [hf] at hv
    simp only [Option.getD_some] at hv
    rw [← hv]
    exact fixedOf_le_one t v c hf

lemma getElem?_some_facts (vars : List String) (k : Nat) (v : String)
    (h : vars[k]? = some v) : k < vars.length ∧ vars.getD k "" = v := by
  have hk : k < vars.length := by
    by_contra hge
    rw [List.getElem?_eq_none (by omega)] at h
    cases h
  refine ⟨hk, ?_⟩
  rw [List.getD_eq_getElem _ _ hk]
  rw [List.getElem?_eq_getElem hk] at h
  exact Option.some_inj.mp h

lemma covered_baseIdx (t : List Literal) (vars : List String) :
    isCovered (fixedOf t) vars (ofBits (baseBits (fixedOf t) vars)) = true := by
  have hlen : (baseBits (fixedOf t) vars).length = vars.length := by
    rw [baseBits, List.length_map]
  rw [isCovered_iff]
  intro k v hk b hb
  obtain ⟨hklen, hgetD⟩ := getElem?_some_facts vars k v hk
  have hbit := bitAt_ofBits (baseBits (fixedOf t) vars) k (baseBits_le_one t vars)
    (by omega)
  rw [hlen] at hbit
  rw [hbit, baseBits, List.getD_eq_getElem _ _ (by simpa using hklen),
    List.getElem_map]
  have hv : vars[k] = v := by
    rw [List.getD_eq_getElem _ _ hklen] at hgetD
    exact hgetD
  rw [hv, hb]
  rfl

lemma mem_get_minterms_iff (t : List Literal) (vars : List String) (i : Nat) :
    i ∈ get_minterms_for_term t vars ↔
      i < 2 ^ vars.length ∧ isCovered (fixedOf t) vars i = true := by
  rw [get_minterms_for_term, List.mem_filter, List.mem_range]

lemma get_minterms_ne_nil (t : List Literal) (vars : List String) :
    get_minterms_for_term t vars ≠ [] := by
  have hlen : (baseBits (fixedOf t) vars).length = vars.length := by
    rw [baseBits, List.length_map]
  have hmem : ofBits (baseBits (fixedOf t) vars) ∈ get_minterms_for_term t vars := by
    rw [mem_get_minterms_iff]
    refine ⟨?_, covered_baseIdx t vars⟩
    have := ofBits_lt (baseBits (fixedOf t) vars) (baseBits_le_one t vars)
    rw [hlen] at this
    exact this
  exact List.ne_nil_of_mem hmem

lemma filterMap_guard {α β : Type} (p : α → Bool) (f : α → β) (l : List α) :
    l.filterMap (fun a => if p a then some (f a) else none) = (l.filter p).map f := by
  induction l with
  | nil => rfl
  | cons a rest ih =>
    by_cases h : p a <;> simp [List.filterMap_cons, List.filter_cons, h, ih]

lemma derivedLiterals_eq (g : List Nat) (vars : List String) (ft : String) :
    derivedLiterals g vars ft
      = ((List.range vars.length).filter (fun i => constAt g vars.length i)).map
          (derivedLit g vars ft) :=
  filterMap_guard (fun i => constAt g vars.length i) (derivedLit g vars ft)
    (List.range vars.length)

lemma derivedLiterals_keys_nodup (g : List Nat) (vars : List String) (ft : String)
    (hv : vars.Nodup) : ((derivedLiterals g vars ft).map Literal.var).Nodup := by
  rw [derivedLiterals_eq, List.map_map]
  apply List.Nodup.map_on
  · intro x hx y hy hxy
    rw [List.mem_filter, List.mem_range] at hx hy
    have hx' : vars[x]? = some (vars.getD x "") := by
      rw [List.getD_eq_getElem _ _ hx.1, List.getElem?_eq_getElem hx.1]
    have hy' : vars[y]? = some (vars.getD y "") := by
      rw [List.getD_eq_getElem _ _ hy.1, List.getElem?_eq_getElem hy.1]
    have p1 := get_posOf vars hv x _ hx'
    have p2 := get_posOf vars hv y _ hy'
    have hxy2 : vars.getD x "" = vars.getD y "" := hxy
    rw [hxy2] at p1
    exact Option.some_inj.mp (p1.symm.trans p2)
  · exact List.Nodup.filter _ (List.nodup_range _)

lemma fixedOf_derived (g : List Nat) (vars : List String) (ft : String)
    (hv : vars.Nodup) (j : Nat) (hj : j < vars.length)
    (hc : constAt g vars.length j = true) :
    fixedOf (derivedLiterals g vars ft) (vars.getD j "")
      = some (polBit (derivedLit g vars ft j)) := by
  show fixedOf (derivedLiterals g vars ft) (derivedLit g vars ft j).var
    = some (polBit (derivedLit g vars ft j))
  apply fixedOf_mem _ _ (derivedLiterals_keys_nodup g vars ft hv)
  rw [derivedLiterals_eq, List.mem_map]
  refine ⟨j, ?_, rfl⟩
  rw [List.mem_filter, List.mem_range]
  exact ⟨hj, hc⟩

lemma fixedOf_derived_some (g : List Nat) (vars : List String) (ft : String)
    (v : String) (b : Nat)
    (h : fixedOf (derivedLiterals g vars ft) v = some b) :
    ∃ j, j < vars.length ∧ constAt g vars.length j = true ∧ v = vars.getD j ""
      ∧ b = polBit (derivedLit g vars ft j) := by
  obtain ⟨l, hl, hv, hb⟩ := fixedOf_some _ _ _ h
  rw [derivedLiterals_eq, List.mem_map] at hl
  obtain ⟨j, hj, hlj⟩ := hl
  rw [List.mem_filter, List.mem_range] at hj
  refine ⟨j, hj.1, hj.2, ?_, ?_⟩
  · rw [← hv, ← hlj]
    rfl
  · rw [← hb, ← hlj]

lemma polBit_SOP (g : List Nat) (vars : List String) (j : Nat) :
    polBit (derivedLit g vars "SOP" j) = firstBit g vars.length j := by
  have h1 : (("SOP" : String) == "SOP") = true := by decide
  have h2 : (("SOP" : String) == "POS") = false := by decide
  have hfb : firstBit g vars.length j < 2 := bitAt_lt_two _ _ _
  rw [polBit, derivedLit]
  simp only [h1, h2, Bool.true_and, Bool.false_and, Bool.or_false]
  interval_cases h : firstBit g vars.length j <;> simp

lemma constAt_of_fixed (t : List Literal) (vars : List String) (k : Nat)
    (v : String) (b : Nat) (hk : vars[k]? = some v) (hb : fixedOf t v = some b) :
    constAt (get_minterms_for_term t vars) vars.length k = true
      ∧ firstBit (get_minterms_for_term t vars) vars.length k = b := by
  have hne : get_minterms_for_term t vars ≠ [] := get_minterms_ne_nil t vars
  have hbit : ∀ m ∈ get_minterms_for_term t vars, bitAt m vars.length k = b := by
    intro m hm
    rw [mem_get_minterms_iff] at hm
    exact (isCovered_iff _ _ _).mp hm.2 k v hk b hb
  have hhead : (get_minterms_for_term t vars).headD 0 ∈ get_minterms_for_term t vars := by
    cases hg : get_minterms_for_term t vars with
    | nil => exact absurd hg hne
    | cons a rest => exact List.mem_cons_self _ _
  have hfb : firstBit (get_minterms_for_term t vars) vars.length k = b := by
    rw [firstBit]
    exact hbit _ hhead
  refine ⟨?_, hfb⟩
  rw [constAt, List.all_eq_true]
  intro m hm
  rw [beq_iff_eq, hbit m hm, hfb]

lemma cov_derived_of_cov (t : List Literal) (vars : List String) (i : Nat)
    (hv : vars.Nodup) (hi : i < 2 ^ vars.length)
    (h : isCovered (fixedOf t) vars i = true) :
    isCovered
      (fixedOf (derivedLiterals (get_minterms_for_term t vars) vars "SOP"))
      vars i = true := by
  rw [isCovered_iff]
  intro k v hk b' hb'
  obtain ⟨j, hjlen, hcj, hvj, hbj⟩ :=
    fixedOf_derived_some (get_minterms_for_term t vars) vars "SOP" v b' hb'
  have hj' : vars[j]? = some v := by
    rw [List.getElem?_eq_getElem hjlen, Option.some_inj, hvj,
      List.getD_eq_getElem _ _ hjlen]
  have hkj : k = j := by
    have p1 := get_posOf vars hv k v hk
    have p2 := get_posOf vars hv j v hj'
    exact Option.some_inj.mp (p1.symm.trans p2)
  subst hkj
  have hig : i ∈ get_minterms_for_term t vars := by
    rw [mem_get_minterms_iff]
    exact ⟨hi, h⟩
  rw [constAt, List.all_eq_true] at hcj
  have hbit := beq_iff_eq.mp (hcj i hig)
  rw [hbj, polBit_SOP]
  exact hbit

lemma cov_of_cov_derived (t : List Literal) (vars : List String) (i : Nat)
    (hv : vars.Nodup)
    (h : isCovered
      (fixedOf (derivedLiterals (get_minterms_for_term t vars) vars "SOP"))
      vars i = true) :
    isCovered (fixedOf t) vars i = true := by
  rw [isCovered_iff]
  intro k v hk b hb
  obtain ⟨hc, hfb⟩ := constAt_of_fixed t vars k v b hk hb
  obtain ⟨hklen, hgetD⟩ := getElem?_some_facts vars k v hk
  have hfd := fixedOf_derived (get_minterms_for_term t vars) vars "SOP" hv k hklen hc
  rw [polBit_SOP, hgetD, hfb] at hfd
  have := (isCovered_iff _ _ _).mp h k v hk b hfd
  exact this

/-- Counterexample to claim C2 as stated: in POS mode, the term derived from
the group of the product term not-a and not-b over [a, b] (group [0]) has
inverted polarity, so re-expanding it through the term expander yields [3],
not the original group [0]. -/
theorem roundtrip_pos_counterexample :
    get_minterms_for_term
        (derivedLiterals
          (get_minterms_for_term [⟨"a", false⟩, ⟨"b", false⟩] ["a", "b"])
          ["a", "b"] "POS")
        ["a", "b"]
      ≠ get_minterms_for_term [⟨"a", false⟩, ⟨"b", false⟩] ["a", "b"] := by
  decide

/-- Claim C2 (amended to SOP mode): for every group obtained by expanding a
term, re-expanding the term derived from the group with the SOP polarity rule
yields exactly the same index list. -/
theorem roundtrip_sop (t : List Literal) (vars : List String)
    (hv : vars.Nodup) :
    get_minterms_for_term
        (derivedLiterals (get_minterms_for_term t vars) vars "SOP") vars
      = get_minterms_for_term t vars := by
  show (List.range (2 ^ vars.length)).filter
      (fun i => isCovered
        (fixedOf (derivedLiterals (get_minterms_for_term t vars) vars "SOP"))
        vars i)
    = (List.range (2 ^ vars.length)).filter
      (fun i => isCovered (fixedOf t) vars i)
  apply List.filter_congr
  intro i hi
  rw [List.mem_range] at hi
  rw [Bool.eq_iff_iff]
  exact ⟨fun h => cov_of_cov_derived t vars i hv h,
    fun h => cov_derived_of_cov t vars i hv hi h⟩

/-- Witness for roundtrip_sop at the term b-negated over variables [a, b]. -/
theorem roundtrip_sop_witness :
    (["a", "b"] : List String).Nodup
      ∧ get_minterms_for_term
            (derivedLiterals (get_minterms_for_term [⟨"b", false⟩] ["a", "b"])
              ["a", "b"] "SOP")
            ["a", "b"]
          = get_minterms_for_term [⟨"b", false⟩] ["a", "b"] :=
  ⟨by decide, roundtrip_sop [⟨"b", false⟩] ["a", "b"] (by decide)⟩

lemma specLiteralAt_eq (g : List Nat) (vars : List String) (ft : String)
    (hne : g ≠ []) (i : Nat) :
    (if constAt g vars.length i then some (litStr (derivedLit g vars ft i)) else none)
      = specLiteralAt g vars ft i := by
  obtain ⟨m, rest, rfl⟩ : ∃ m rest, g = m :: rest := by
    cases g with
    | nil => exact absurd rfl hne
    | cons a r => exact ⟨a, r, rfl⟩
  have hb2 : bitAt m vars.length i < 2 := bitAt_lt_two _ _ _
  have hcases : bitAt m vars.length i = 0 ∨ bitAt m vars.length i = 1 := by omega
  rcases hcases with h0 | h1
  · simp only [specLiteralAt, constAt, firstBit, List.headD_cons, List.all_cons, h0,
      beq_self_eq_true, Bool.true_and, litStr, derivedLit]
    rw [show ((0 : Nat) == 1) = false from by decide]
    simp only [Bool.and_false, Bool.false_and, Bool.false_or, Bool.and_true]
    by_cases hc : rest.all (fun x => bitAt x vars.length i == 0)
    · simp [hc]
    · simp [hc]
  · simp only [specLiteralAt, constAt, firstBit, List.headD_cons, List.all_cons, h1,
      beq_self_eq_true, Bool.true_and, litStr, derivedLit]
    rw [show ((1 : Nat) == 0) = false from by decide]
    simp only [Bool.and_false, Bool.false_and, Bool.or_false, Bool.and_true]
    by_cases hc : rest.all (fun x => bitAt x vars.length i == 1)
    · simp [hc]
    · simp [hc]

lemma group_to_term_parts (g : List Nat) (vars : List String) (ft : String)
    (hne : g ≠ []) :
    (derivedLiterals g vars ft).map litStr
      = (List.range vars.length).filterMap (specLiteralAt g vars ft) := by
  rw [derivedLiterals, List.map_filterMap]
  apply List.filterMap_congr
  intro i _
  rw [← specLiteralAt_eq g vars ft hne i]
  by_cases hc : constAt g vars.length i
  · rw [if_pos hc, if_pos hc]
    rfl
  · rw [if_neg hc, if_neg hc]
    rfl

/-- Claim C3: for a non-empty group, group_to_term includes one literal per
constant bit position named by the mode rule (SOP: constant 0 primed,
constant 1 plain; POS inverted), drops non-constant positions, concatenates
for SOP, joins with " + " in parentheses for POS, and returns "1" when no
position is constant; in particular [0] over [a, b] yields a-prime-b-prime
under SOP and (a + b) under POS. -/
theorem group_to_term_spec (g : List Nat) (vars : List String) (ft : String)
    (hne : g ≠ []) :
    group_to_term g vars ft = specTermString g vars ft
      ∧ group_to_term [0] ["a", "b"] "SOP" = "a" ++ primeMark ++ "b" ++ primeMark
      ∧ group_to_term [0] ["a", "b"] "POS" = "(a + b)" := by
  refine ⟨?_, by decide, by decide⟩
  simp only [group_to_term, specTermString, if_neg hne]
  rw [group_to_term_parts g vars ft hne]

/-- Witness for group_to_term_spec at the group [0] over [a, b] in SOP mode. -/
theorem group_to_term_spec_witness :
    ([0] : List Nat) ≠ []
      ∧ (group_to_term [0] ["a", "b"] "SOP" = specTermString [0] ["a", "b"] "SOP"
          ∧ group_to_term [0] ["a", "b"] "SOP" = "a" ++ primeMark ++ "b" ++ primeMark
          ∧ group_to_term [0] ["a", "b"] "POS" = "(a + b)") :=
  ⟨by decide, group_to_term_spec [0] ["a", "b"] "SOP" (by decide)⟩

/-- Claim C4 (code bug): on the scenario variables a,b,c with all eight
minterms under SOP, the minimizer returns the sympy true constant; the
identity test at app.py line 81 does not fire for it, so the response
solution string is "True" rather than the intended "1", while the groups
list is empty as claimed. The last conjunct records the intent of lines
81-82: had the branch fired (a Python builtin True), it would return "1". -/
theorem solution_true_constant_bug :
    respSolution (solve_kmap constTrueMin ["a", "b", "c"] "f"
          [0, 1, 2, 3, 4, 5, 6, 7] [] "SOP")
        = some "True"
      ∧ respGroups (solve_kmap constTrueMin ["a", "b", "c"] "f"
          [0, 1, 2, 3, 4, 5, 6, 7] [] "SOP")
        = some []
      ∧ ("True" : String) ≠ "1"
      ∧ format_sympy_expr (BExpr.pyBool true) "SOP" = "1" := by
  decide

/-- Claim C5: for every n in {2,3,4} and any two indices in [0, 2^n) that
differ in exactly one bit, the assigned grid positions are adjacent
(Manhattan distance 1, counting wraparound across a grid edge as 1). -/
theorem kmap_adjacency :
    ∀ n ∈ ([2, 3, 4] : List Nat), ∀ x, x < 2 ^ n → ∀ y, y < 2 ^ n →
      oneBitDiff x y = true → kmapAdjacent n x y = true := by
  decide

/-- Witness for kmap_adjacency at n = 3, x = 0, y = 4. -/
theorem kmap_adjacency_witness :
    (3 ∈ ([2, 3, 4] : List Nat)) ∧ 0 < 2 ^ 3 ∧ 4 < 2 ^ 3
      ∧ oneBitDiff 0 4 = true ∧ kmapAdjacent 3 0 4 = true :=
  ⟨by decide, by decide, by decide, by decide,
    kmap_adjacency 3 (by decide) 0 (by decide) 4 (by decide) (by decide)⟩

/-- Counterexample to claim C7 as stated: with five variable names but no
minterms and no dont-cares, the request takes the empty-input short-circuit
first; generate_kmap returns None there, the update on None raises, and the
caller gets the 500 catch-all, not a client error naming the count. -/
theorem invalid_count_counterexample :
    solve_kmap trivialMin ["a", "b", "c", "d", "e"] "f" [] [] "SOP"
        = SolveResponse.serverError
      ∧ isClientError
          (solve_kmap trivialMin ["a", "b", "c", "d", "e"] "f" [] [] "SOP")
        = false := by
  decide

/-- Claim C7 (amended): for every request with a nonempty variable-name list
of length outside {2,3,4} and at least one minterm or dont-care, the response
is the 400 client error whose message names the supplied count and the
supported range 2-4. -/
theorem invalid_count_client_error (M : Minimizer) (vars : List String)
    (output_name form_type : String) (minterms dontcares : List Nat)
    (hne : ¬(minterms = [] ∧ dontcares = [])) (hv : vars ≠ [])
    (hbad : ¬(vars.length = 2 ∨ vars.length = 3 ∨ vars.length = 4)) :
    solve_kmap M vars output_name minterms dontcares form_type
      = SolveResponse.clientError
          (toString vars.length ++ " variables not supported (2-4 only).") := by
  unfold solve_kmap
  rw [if_neg (not_or.mpr ⟨hv, hne⟩), if_pos hbad]

/-- Witness for invalid_count_client_error at five variable names with one
minterm. -/
theorem invalid_count_client_error_witness :
    ¬(([1] : List Nat) = [] ∧ ([] : List Nat) = [])
      ∧ (["a", "b", "c", "d", "e"] : List String) ≠ []
      ∧ ¬((["a", "b", "c", "d", "e"] : List String).length = 2
          ∨ (["a", "b", "c", "d", "e"] : List String).length = 3
          ∨ (["a", "b", "c", "d", "e"] : List String).length = 4)
      ∧ solve_kmap trivialMin ["a", "b", "c", "d", "e"] "f" [1] [] "SOP"
        = SolveResponse.clientError
            (toString (["a", "b", "c", "d", "e"] : List String).length
              ++ " variables not supported (2-4 only).") :=
  ⟨by decide, by decide, by decide,
    invalid_count_client_error trivialMin ["a", "b", "c", "d", "e"] "f" "SOP"
      [1] [] (by decide) (by decide) (by decide)⟩

/-- Claim C8: for every n in {2,3,4}, a request with an empty on-set and an
empty dont-care set returns solution "0", empty groups, empty explanations,
and an all-"0" grid. -/
theorem empty_input_zero_response (M : Minimizer) (vars : List String)
    (output_name form_type : String)
    (hlen : vars.length = 2 ∨ vars.length = 3 ∨ vars.length = 4) :
    respSolution (solve_kmap M vars output_name [] [] form_type) = some "0"
      ∧ respGroups (solve_kmap M vars output_name [] [] form_type) = some []
      ∧ respExplanations (solve_kmap M vars output_name [] [] form_type) = some []
      ∧ respGridAll "0" (solve_kmap M vars output_name [] [] form_type) = true := by
  have hv : vars ≠ [] := by
    intro h
    subst h
    simp at hlen
  unfold solve_kmap
  rw [if_pos (Or.inr ⟨rfl, rfl⟩), if_neg hv]
  unfold generate_kmap
  rw [if_pos hlen]
  refine ⟨rfl, rfl, rfl, ?_⟩
  show (fillKmap vars.length [] []).all (fun row => row.all (fun cell => cell == "0"))
    = true
  rcases hlen with h | h | h <;> rw [h] <;> decide

/-- Witness for empty_input_zero_response at variables [a, b]. -/
theorem empty_input_zero_response_witness :
    ((["a", "b"] : List String).length = 2 ∨ (["a", "b"] : List String).length = 3
        ∨ (["a", "b"] : List String).length = 4)
      ∧ (respSolution (solve_kmap trivialMin ["a", "b"] "f" [] [] "SOP") = some "0"
        ∧ respGroups (solve_kmap trivialMin ["a", "b"] "f" [] [] "SOP") = some []
        ∧ respExplanations (solve_kmap trivialMin ["a", "b"] "f" [] [] "SOP")
          = some []
        ∧ respGridAll "0" (solve_kmap trivialMin ["a", "b"] "f" [] [] "SOP")
          = true) :=
  ⟨by decide,
    empty_input_zero_response trivialMin ["a", "b"] "f" "SOP" (by decide)⟩

/-- Claim C10: for every n in {2,3,4}, the index-to-cell mapping of
generate_kmap is a bijection from [0, 2^n) onto the rows-by-cols grid: every
position is in range, no two indices collide, and every cell is hit. -/
theorem kmapPos_bijective :
    ∀ n ∈ ([2, 3, 4] : List Nat),
      (∀ i, i < 2 ^ n →
          (kmapPos n i).1 < (kmapDims n).1 ∧ (kmapPos n i).2 < (kmapDims n).2)
        ∧ (∀ i, i < 2 ^ n → ∀ j, j < 2 ^ n → kmapPos n i = kmapPos n j → i = j)
        ∧ (∀ r, r < (kmapDims n).1 → ∀ c, c < (kmapDims n).2 →
            ∃ i, i < 2 ^ n ∧ kmapPos n i = (r, c)) := by
  decide

/-- Witness for kmapPos_bijective at n = 4. -/
theorem kmapPos_bijective_witness :
    (4 ∈ ([2, 3, 4] : List Nat))
      ∧ ((∀ i, i < 2 ^ 4 →
            (kmapPos 4 i).1 < (kmapDims 4).1 ∧ (kmapPos 4 i).2 < (kmapDims 4).2)
        ∧ (∀ i, i < 2 ^ 4 → ∀ j, j < 2 ^ 4 → kmapPos 4 i = kmapPos 4 j → i = j)
        ∧ (∀ r, r < (kmapDims 4).1 → ∀ c, c < (kmapDims 4).2 →
            ∃ i, i < 2 ^ 4 ∧ kmapPos 4 i = (r, c))) :=
  ⟨by decide, kmapPos_bijective 4 (by decide)⟩

lemma getD_set_self {α : Type} (l : List α) (i : Nat) (a d : α) (h : i < l.length) :
    (l.set i a).getD i d = a := by
  simp [List.getD_eq_getElem?_getD, List.getElem?_set_self h]

lemma getD_set_ne {α : Type} (l : List α) (i j : Nat) (a d : α) (h : i ≠ j) :
    (l.set i a).getD j d = l.getD j d := by
  simp [List.getD_eq_getElem?_getD, List.getElem?_set_ne h]

lemma getCell_setCell_self (g : List (List String)) (r c : Nat) (v : String)
    (hr : r < g.length) (hc : c < (g.getD r []).length) :
    getCell (setCell g r c v) r c = v := by
  rw [getCell, setCell, getD_set_self _ _ _ _ hr, getD_set_self _ _ _ _ hc]

lemma getCell_setCell_ne (g : List (List String)) (r c r2 c2 : Nat) (v : String)
    (h : ¬(r = r2 ∧ c = c2)) :
    getCell (setCell g r2 c2 v) r c = getCell g r c := by
  rw [getCell, setCell]
  by_cases hr : r2 = r
  · subst hr
    have hc : c2 ≠ c := fun he => h ⟨rfl, he.symm⟩
    by_cases hlen : r2 < g.length
    · rw [getD_set_self _ _ _ _ hlen, getD_set_ne _ _ _ _ _ hc]
      rfl
    · rw [List.set_eq_of_length_le (by omega)]
      rfl
  · rw [getD_set_ne _ _ _ _ _ hr]
    rfl

lemma shapeOk_setCell (rows cols : Nat) (g : List (List String)) (r c : Nat)
    (v : String) (h : shapeOk rows cols g) : shapeOk rows cols (setCell g r c v) := by
  obtain ⟨hlen, hrow⟩ := h
  constructor
  · rw [setCell, List.length_set]
    exact hlen
  · intro r2 hr2
    by_cases he : r = r2
    · subst he
      by_cases hlt : r < g.length
      · rw [setCell, getD_set_self _ _ _ _ hlt, List.length_set]
        exact hrow r hr2
      · rw [setCell, List.set_eq_of_length_le (by omega)]
        exact hrow r hr2
    · rw [setCell, getD_set_ne _ _ _ _ _ he]
      exact hrow r2 hr2

lemma shapeOk_replicate (rows cols : Nat) :
    shapeOk rows cols (List.replicate rows (List.replicate cols "0")) := by
  constructor
  · exact List.length_replicate _ _
  · intro r hr
    simp [List.getD_eq_getElem?_getD, List.getElem?_replicate, hr]

lemma foldl_write_ne (pos : Nat → Nat × Nat) (val : Nat → String) (L : List Nat)
    (g : List (List String)) (p : Nat × Nat) (h : ∀ j ∈ L, pos j ≠ p) :
    getCell (L.foldl (fun acc j => setCell acc (pos j).1 (pos j).2 (val j)) g)
        p.1 p.2
      = getCell g p.1 p.2 := by
  induction L generalizing g with
  | nil => rfl
  | cons j rest ih =>
    rw [List.foldl_cons]
    rw [ih _ (fun x hx => h x (List.mem_cons_of_mem _ hx))]
    apply getCell_setCell_ne
    rintro ⟨h1, h2⟩
    exact h j (List.mem_cons_self _ _) (Prod.ext_iff.mpr ⟨h1.symm, h2.symm⟩)

lemma foldl_write_read (pos : Nat → Nat × Nat) (val : Nat → String)
    (rows cols : Nat) (i : Nat) (L : List Nat) :
    ∀ g : List (List String), shapeOk rows cols g → i ∈ L →
      (∀ j ∈ L, (pos j).1 < rows ∧ (pos j).2 < cols) →
      (∀ j ∈ L, j ≠ i → pos j ≠ pos i) →
      getCell (L.foldl (fun acc j => setCell acc (pos j).1 (pos j).2 (val j)) g)
          (pos i).1 (pos i).2
        = val i := by
  induction L with
  | nil =>
    intro g _ hmem _ _
    cases hmem
  | cons j rest ih =>
    intro g hshape hmem hbound hinj
    rw [List.foldl_cons]
    by_cases hjr : i ∈ rest
    · exact ih _ (shapeOk_setCell rows cols g _ _ _ hshape) hjr
        (fun x hx => hbound x (List.mem_cons_of_mem _ hx))
        (fun x hx => hinj x (List.mem_cons_of_mem _ hx))
    · have hji : j = i := by
        rcases List.mem_cons.mp hmem with h | h
        · exact h.symm
        · exact absurd h hjr
      subst hji
      have hne : ∀ x ∈ rest, pos x ≠ pos j := by
        intro x hx
        have hxj : x ≠ j := fun he => hjr (he ▸ hx)
        exact hinj x (List.mem_cons_of_mem _ hx) hxj
      rw [foldl_write_ne pos val rest _ (pos j) hne]
      have hb := hbound j (List.mem_cons_self _ _)
      apply getCell_setCell_self
      · rw [hshape.1]
        exact hb.1
      · rw [hshape.2 (pos j).1 hb.1]
        exact hb.2

lemma fillKmap_getCell (n : Nat) (hn : n = 2 ∨ n = 3 ∨ n = 4)
    (minterms dontcares : List Nat) (i : Nat) (hi : i < 2 ^ n) :
    getCell (fillKmap n minterms dontcares) (kmapPos n i).1 (kmapPos n i).2
      = all_terms_get minterms dontcares i := by
  have hb : ∀ j, j < 2 ^ n →
      (kmapPos n j).1 < (kmapDims n).1 ∧ (kmapPos n j).2 < (kmapDims n).2 := by
    rcases hn with h | h | h <;> subst h <;> decide
  have hinj : ∀ x, x < 2 ^ n → ∀ y, y < 2 ^ n → x ≠ y →
      kmapPos n x ≠ kmapPos n y := by
    rcases hn with h | h | h <;> subst h <;> decide
  unfold fillKmap
  exact foldl_write_read (kmapPos n) (all_terms_get minterms dontcares)
    (kmapDims n).1 (kmapDims n).2 i (List.range (2 ^ n)) _
    (shapeOk_replicate _ _)
    (List.mem_range.mpr hi)
    (fun j hj => hb j (List.mem_range.mp hj))
    (fun j hj hne => hinj j (List.mem_range.mp hj) i hi hne)

/-- Counterexample to claim C6 as stated: index 0 placed in both the on-set
and the dont-care set of generate_kmap over [a, b] yields cell value "X",
not "1" (all_terms.update with the dont-care dict overwrites the on-set
entry). -/
theorem onset_precedence_counterexample :
    kmapCellOf (generate_kmap ["a", "b"] [0] [0] "f")
        (kmapPos 2 0).1 (kmapPos 2 0).2 = "X"
      ∧ ("X" : String) ≠ "1" := by
  decide

/-- Claim C6 (amended): for every index in both the on-set and the dont-care
set passed to generate_kmap, the corresponding grid cell is set to "X": the
dont-care dict update overwrites the on-set entry, so the dont-care value
takes precedence over the on-set value "1". -/
theorem overlap_cell_is_X (vars : List String) (minterms dontcares : List Nat)
    (output_name : String) (i : Nat)
    (hlen : vars.length = 2 ∨ vars.length = 3 ∨ vars.length = 4)
    (hi : i < 2 ^ vars.length) (_hm : i ∈ minterms) (hd : i ∈ dontcares) :
    kmapCellOf (generate_kmap vars minterms dontcares output_name)
      (kmapPos vars.length i).1 (kmapPos vars.length i).2 = "X" := by
  unfold generate_kmap
  rw [if_pos hlen]
  show getCell (fillKmap vars.length minterms dontcares)
    (kmapPos vars.length i).1 (kmapPos vars.length i).2 = "X"
  rw [fillKmap_getCell vars.length hlen minterms dontcares i hi]
  have hc : dontcares.contains i = true := List.elem_iff.mpr hd
  rw [all_terms_get, if_pos hc]

/-- Witness for overlap_cell_is_X at index 0 over [a, b]. -/
theorem overlap_cell_is_X_witness :
    ((["a", "b"] : List String).length = 2 ∨ (["a", "b"] : List String).length = 3
        ∨ (["a", "b"] : List String).length = 4)
      ∧ 0 < 2 ^ (["a", "b"] : List String).length
      ∧ (0 : Nat) ∈ ([0] : List Nat)
      ∧ (0 : Nat) ∈ ([0] : List Nat)
      ∧ kmapCellOf (generate_kmap ["a", "b"] [0] [0] "f")
          (kmapPos (["a", "b"] : List String).length 0).1
          (kmapPos (["a", "b"] : List String).length 0).2 = "X" :=
  ⟨by decide, by decide, by decide, by decide,
    overlap_cell_is_X ["a", "b"] [0] [0] "f" 0 (by decide) (by decide) (by decide)
      (by decide)⟩

lemma pySorted_eq_nil_iff (l : List Nat) : pySorted l = [] ↔ l = [] := by
  constructor
  · intro h
    have hp := List.perm_insertionSort (fun a b => a ≤ b) l
    rw [pySorted] at h
    rw [h] at hp
    exact (List.Perm.nil_eq hp).symm
  · intro h
    subst h
    rfl

lemma any_iff_filter_ne_nil (g : List Nat) (p : Nat → Bool) :
    g.any p = true ↔ g.filter p ≠ [] := by
  rw [List.any_eq_true]
  constructor
  · rintro ⟨a, ha, hp⟩ h
    have hmem : a ∈ g.filter p := List.mem_filter.mpr ⟨ha, hp⟩
    rw [h] at hmem
    cases hmem
  · intro h
    cases hf : g.filter p with
    | nil => exact absurd hf h
    | cons a rest =>
      have hmem : a ∈ g.filter p := by
        rw [hf]
        exact List.mem_cons_self _ _
      rw [List.mem_filter] at hmem
      exact ⟨a, hmem.1, hmem.2⟩

/-- Claim C9: an explanation is emitted for a group iff its intersection with
the relevant set (on-set for SOP, maxterms for POS) is non-empty; emitted
explanations follow the group order and name the relevant positions sorted
ascending together with the derived term; a group covering only dont-cares is
skipped. -/
theorem explanations_characterization (groups : List (List Nat))
    (terms_to_group : List Nat) (vars : List String) (ft tn : String) :
    mkExplanations groups terms_to_group vars ft tn
        = (groups.filter (fun g => g.any (fun m => terms_to_group.contains m))).map
            (fun g => explSentence tn
              (pySorted (g.filter (fun m => terms_to_group.contains m)))
              (group_to_term g vars ft))
      ∧ ∀ g : List Nat,
          List.Sorted (fun a b => a ≤ b)
            (pySorted (g.filter (fun m => terms_to_group.contains m))) := by
  constructor
  · induction groups with
    | nil => rfl
    | cons g rest ih =>
      rw [mkExplanations, List.filterMap_cons, List.filter_cons]
      rw [mkExplanations] at ih
      by_cases hc : g.any (fun m => terms_to_group.contains m)
      · have hne : g.filter (fun m => terms_to_group.contains m) ≠ [] :=
          (any_iff_filter_ne_nil _ _).mp hc
        have hps : ¬ pySorted (g.filter (fun m => terms_to_group.contains m)) = [] :=
          fun h => hne ((pySorted_eq_nil_iff _).mp h)
        simp only [hc, if_true, if_neg hps, ih]
        rfl
      · have hnil : g.filter (fun m => terms_to_group.contains m) = [] := by
          by_contra hne
          exact hc ((any_iff_filter_ne_nil _ _).mpr hne)
        have hps : pySorted (g.filter (fun m => terms_to_group.contains m)) = [] :=
          (pySorted_eq_nil_iff _).mpr hnil
        simp only [hc, if_false, if_pos hps, ih]
        simp
  · intro g
    exact List.sorted_insertionSort _ _

end KMap
